import Mathlib

/-!
Verification of the concurrent EM training orchestrator of the
supervised-lda repository (src/include/ldaplusplus/LDA.hpp,
src/include/IEStep.hpp, src/test/test_online_maximization_step.cpp).

The repository ships only the `LDA` class declaration (LDA.hpp), the
`IEStep` strategy interface (IEStep.hpp) and one test.  The bodies of
`fit`, `partial_fit`, `transform`, `doc_e_step_worker`,
`extract_vp_from_queue`, and the `ThreadSafeEventDispatcher` are not in
the sources; where a definition below embeds such a missing body it is
modelled from the specification and its doc comment says so.

Scalars (C++ `float`/`double`) are modelled as `Int`: none of the claims
verified here depend on rounding, only on data flow, call counts and
ordering.
-/

namespace LdaSpec

/-- The numeric scalar type of the templates (`Scalar`), modelled exactly. -/
abbrev Scalar := Int

/-- A corpus document: an integer word-count vector and an optional
integer class label (spec section 3, Data model). -/
structure Document where
  wordCounts : List Int
  label : Option Int
deriving Repr, DecidableEq

/-- The corpus: an ordered sequence of documents; `size()` is the length
and `at(i)` is positional access. -/
abbrev Corpus := List Document

/-- The shared model parameter bundle handed to the expectation step:
`alpha`, `beta`, `eta` of `IEStep::doc_e_step` (src/include/IEStep.hpp). -/
structure ModelParameters where
  alpha : List Scalar
  beta : List (List Scalar)
  eta : List (List Scalar)
deriving Repr, DecidableEq

/-- Per-document variational parameters: the `phi` matrix and the `gamma`
vector written through the `Ref` out-parameters of `doc_e_step`. -/
structure VariationalParameters where
  phi : List (List Scalar)
  gamma : List Scalar
deriving Repr, DecidableEq

/-!
## Worker pool queue protocol

Modelled from the spec: the bodies of `doc_e_step_worker`,
`create_worker_pool` and the epoch loop are not under src/ (LDA.hpp only
declares them together with `queue_in_`, `queue_in_mutex_`, `queue_out_`,
`queue_out_mutex_`, `queue_out_cv_`).  Spec sections 4.3 and 4.5: the
orchestrator seeds `queue_in_` with one `WorkQueueEntry` per document
index in `[0, size)`; each worker repeatedly locks `queue_in_`, pops one
entry, unlocks, runs `doc_e_step`, locks `queue_out_`, pushes one
`ResultQueueEntry` and signals the condition variable.

Because each pop and each push happens under the respective mutex, a run
of the pool is a sequence of atomic actions.  `PoolAction.pop w` is
worker `w` taking the front work entry (and thereby starting its single
`doc_e_step` call for that entry); `PoolAction.push w i` is worker `w`
delivering the result for document `i` it previously popped.  The
schedule (which worker acts when) is arbitrary, which covers every
worker count `W >= 1`.
-/

/-- State of the two queues during one epoch.  `queueIn` holds the not
yet claimed document indices (the `WorkQueueEntry`s, corpus reference
elided since it is constant), `inFlight` the (worker, index) pairs popped
but not yet delivered, `queueOut` the delivered `ResultQueueEntry`
indices in delivery order, and `eStepLog` the indices passed to
`doc_e_step` in call order. -/
structure PoolState where
  queueIn : List Nat
  inFlight : List (Nat × Nat)
  queueOut : List Nat
  eStepLog : List Nat
deriving Repr, DecidableEq

/-- An atomic scheduler action of the worker pool. -/
inductive PoolAction where
  | pop (w : Nat)
  | push (w : Nat) (i : Nat)
deriving Repr, DecidableEq

/-- Remove the first occurrence of an entry from the in-flight list. -/
def removeEntry (p : Nat × Nat) : List (Nat × Nat) → List (Nat × Nat)
  | [] => []
  | q :: rest => if q = p then rest else q :: removeEntry p rest

theorem perm_cons_removeEntry (p : Nat × Nat) (l : List (Nat × Nat))
    (h : p ∈ l) : List.Perm l (p :: removeEntry p l) := by
  induction l with
  | nil => simp at h
  | cons q rest ih =>
    by_cases hq : q = p
    · subst hq
      simp [removeEntry]
    · have hmem : p ∈ rest := by
        cases List.mem_cons.mp h with
        | inl h1 => exact absurd h1.symm hq
        | inr h2 => exact h2
      have h1 : List.Perm (q :: rest) (q :: p :: removeEntry p rest) :=
        (ih hmem).cons q
      have h2 : List.Perm (q :: p :: removeEntry p rest)
          (p :: q :: removeEntry p rest) := List.Perm.swap p q _
      simpa [removeEntry, hq] using h1.trans h2

/-- Modelled from the spec: one atomic step of the queue protocol of
section 4.3.  A `pop` removes the front entry of the closed input queue
under `queue_in_mutex_` and hands it to `doc_e_step`; a `push` moves a
finished in-flight entry to the output queue under `queue_out_mutex_`.
An action that is impossible in the current state returns `none`. -/
def poolStep : PoolAction → PoolState → Option PoolState
  | PoolAction.pop w, s =>
    match s.queueIn with
    | [] => none
    | i :: rest =>
      some { queueIn := rest
             inFlight := s.inFlight ++ [(w, i)]
             queueOut := s.queueOut
             eStepLog := s.eStepLog ++ [i] }
  | PoolAction.push w i, s =>
    if (w, i) ∈ s.inFlight then
      some { s with inFlight := removeEntry (w, i) s.inFlight
                    queueOut := s.queueOut ++ [i] }
    else none

/-- Run a schedule of pool actions from a state; `none` if some action is
impossible. -/
def poolRun : List PoolAction → PoolState → Option PoolState
  | [], s => some s
  | a :: rest, s =>
    match poolStep a s with
    | none => none
    | some s2 => poolRun rest s2

/-- The epoch-start state: the orchestrator has enqueued `(corpus, i)`
for every `i` in `[0, N)` and closed the input queue. -/
def poolInit (N : Nat) : PoolState :=
  { queueIn := List.range N, inFlight := [], queueOut := [], eStepLog := [] }

/-- The multiset of work entries still travelling through the pool:
input queue, in-flight, and output queue together. -/
def poolLoad (s : PoolState) : List Nat :=
  s.queueIn ++ s.inFlight.map Prod.snd ++ s.queueOut

/-- Every entry passed to `doc_e_step` was removed from the input queue:
log and remaining input together are conserved by every step. -/
def poolPopped (s : PoolState) : List Nat :=
  s.eStepLog ++ s.queueIn

theorem poolStep_load_perm (a : PoolAction) (s s2 : PoolState)
    (h : poolStep a s = some s2) : List.Perm (poolLoad s2) (poolLoad s) := by
  cases a with
  | pop w =>
    cases hq : s.queueIn with
    | nil => simp [poolStep, hq] at h
    | cons i rest =>
      simp [poolStep, hq] at h
      subst h
      simp [poolLoad, hq, List.perm_iff_count, List.count_append, List.count_cons]
      intro a
      omega
  | push w i =>
    by_cases hmem : (w, i) ∈ s.inFlight
    · simp [poolStep, hmem] at h
      subst h
      have hperm : List.Perm s.inFlight ((w, i) :: removeEntry (w, i) s.inFlight) :=
        perm_cons_removeEntry (w, i) s.inFlight hmem
      have hmap : List.Perm (s.inFlight.map Prod.snd)
          (i :: (removeEntry (w, i) s.inFlight).map Prod.snd) := by
        simpa using hperm.map Prod.snd
      simp only [poolLoad, List.perm_iff_count, List.count_append] at hmap ⊢
      intro a
      have := hmap a
      simp [List.count_cons] at this ⊢
      omega
    · simp [poolStep, hmem] at h

theorem poolStep_popped_perm (a : PoolAction) (s s2 : PoolState)
    (h : poolStep a s = some s2) : List.Perm (poolPopped s2) (poolPopped s) := by
  cases a with
  | pop w =>
    cases hq : s.queueIn with
    | nil => simp [poolStep, hq] at h
    | cons i rest =>
      simp [poolStep, hq] at h
      subst h
      simp [poolPopped, hq, List.perm_iff_count, List.count_append, List.count_cons]
  | push w i =>
    by_cases hmem : (w, i) ∈ s.inFlight
    · simp [poolStep, hmem] at h
      subst h
      simp [poolPopped]
    · simp [poolStep, hmem] at h

theorem poolRun_load_perm (acts : List PoolAction) (s s2 : PoolState)
    (h : poolRun acts s = some s2) : List.Perm (poolLoad s2) (poolLoad s) := by
  induction acts generalizing s with
  | nil =>
    simp [poolRun] at h
    subst h
    exact List.Perm.refl _
  | cons a rest ih =>
    simp only [poolRun] at h
    cases hs : poolStep a s with
    | none => rw [hs] at h; exact absurd h (by simp)
    | some s1 =>
      rw [hs] at h
      exact (ih s1 h).trans (poolStep_load_perm a s s1 hs)

theorem poolRun_popped_perm (acts : List PoolAction) (s s2 : PoolState)
    (h : poolRun acts s = some s2) : List.Perm (poolPopped s2) (poolPopped s) := by
  induction acts generalizing s with
  | nil =>
    simp [poolRun] at h
    subst h
    exact List.Perm.refl _
  | cons a rest ih =>
    simp only [poolRun] at h
    cases hs : poolStep a s with
    | none => rw [hs] at h; exact absurd h (by simp)
    | some s1 =>
      rw [hs] at h
      exact (ih s1 h).trans (poolStep_popped_perm a s s1 hs)

/-- Claim C1: for every epoch and every worker count W >= 1 (the schedule
of pool actions and the worker ids in it are arbitrary), once the pool
has drained the closed input queue, every document index in
`[0, corpus.size())` was passed to `doc_e_step` exactly once, and exactly
one result entry per work entry reached the output queue: the number of
results dequeued equals the number of entries enqueued, with no loss and
no duplication. -/
theorem claim1_each_doc_exactly_once (N : Nat) (acts : List PoolAction)
    (s2 : PoolState) (hrun : poolRun acts (poolInit N) = some s2)
    (hin : s2.queueIn = []) (hfl : s2.inFlight = []) :
    List.Perm s2.eStepLog (List.range N) ∧
    List.Perm s2.queueOut (List.range N) ∧
    s2.queueOut.length = N ∧
    (∀ i, i < N → s2.eStepLog.count i = 1 ∧ s2.queueOut.count i = 1) := by
  have hload := poolRun_load_perm acts (poolInit N) s2 hrun
  have hpop := poolRun_popped_perm acts (poolInit N) s2 hrun
  simp [poolLoad, poolInit, hin, hfl] at hload
  simp [poolPopped, poolInit, hin] at hpop
  refine ⟨hpop, hload, ?_, ?_⟩
  · simpa [List.length_range] using hload.length_eq
  · intro i hi
    have hmem : i ∈ List.range N := List.mem_range.mpr hi
    have hone : (List.range N).count i = 1 :=
      List.count_eq_one_of_mem (List.nodup_range N) hmem
    exact ⟨by rw [hpop.count_eq, hone], by rw [hload.count_eq, hone]⟩

theorem claim1_witness :
    poolRun [PoolAction.pop 0, PoolAction.pop 1, PoolAction.push 1 1,
             PoolAction.push 0 0] (poolInit 2) =
      some { queueIn := [], inFlight := [], queueOut := [1, 0],
             eStepLog := [0, 1] } ∧
    (List.Perm ([0, 1] : List Nat) (List.range 2) ∧
     List.Perm ([1, 0] : List Nat) (List.range 2) ∧
     ([1, 0] : List Nat).length = 2 ∧
     (∀ i, i < 2 → ([0, 1] : List Nat).count i = 1 ∧
        ([1, 0] : List Nat).count i = 1)) := by
  refine ⟨by decide, ?_⟩
  exact claim1_each_doc_exactly_once 2
    [PoolAction.pop 0, PoolAction.pop 1, PoolAction.push 1 1, PoolAction.push 0 0]
    { queueIn := [], inFlight := [], queueOut := [1, 0], eStepLog := [0, 1] }
    (by decide) rfl rfl

/-!
## Orchestrator epoch loop

Modelled from the spec: the bodies of `fit`, `partial_fit` and
`extract_vp_from_queue` are declared in LDA.hpp but not implemented under
src/.  Spec section 4.5: per epoch the orchestrator (a) optionally
shuffles, (b) enqueues every index, (c) closes the input queue, (d)
dequeues `ResultQueueEntry`s until `size` entries have been consumed,
forwarding each to `doc_m_step` in dequeue order on the orchestrator
thread, (e) calls `m_step(model)`, (f) flushes the event dispatcher.
Spec section 7: an exception inside a worker's `doc_e_step` is captured,
tagged with the failing document index, re-thrown on the orchestrator
thread when the result is awaited, and the epoch does not proceed to
`m_step`.

The pool model above shows (claim C1) that the dequeue order of a
drained epoch is a permutation of `List.range N`; here the dequeue order
is a parameter, as is the order in which workers start their
`doc_e_step` calls.
-/

/-- A captured worker exception, tagged with the failing document index
(spec section 7, `WorkerFailure`). -/
structure WorkerFailure where
  docIndex : Nat
deriving Repr, DecidableEq

/-- The strategy calls an epoch makes, in the order they are issued.
`docEStepCall` entries are issued on worker threads; `docMStepCall` and
`mStepCall` entries are issued on the orchestrator thread. -/
inductive EpochCall where
  | docEStepCall (i : Nat)
  | docMStepCall (i : Nat)
  | mStepCall
deriving Repr, DecidableEq

/-- The outcome of one `doc_e_step` call: the variational parameters and
the likelihood, or the raised exception (message). -/
abbrev EStepResult := Except String (VariationalParameters × Scalar)

/-- Modelled from the spec: step (d) of the epoch loop.  The
orchestrator awaits each result in dequeue order; a successful result is
forwarded to `doc_m_step`, the first failed result is re-thrown as a
`WorkerFailure` tagged with its document index and stops the drain. -/
def drainResults (eStep : Nat → EStepResult) :
    List Nat → List EpochCall × Option WorkerFailure
  | [] => ([], none)
  | i :: rest =>
    match eStep i with
    | Except.ok _ =>
      let r := drainResults eStep rest
      (EpochCall.docMStepCall i :: r.1, r.2)
    | Except.error _ => ([], some { docIndex := i })

/-- Modelled from the spec: the calls made during one epoch.  `popOrder`
is the order in which workers start `doc_e_step` calls (workers always
drain the queue they were given, spec section 5), `deqOrder` the order
in which the orchestrator dequeues results.  `m_step` is called exactly
when the drain finished without a failure. -/
def epochCalls (eStep : Nat → EStepResult) (popOrder deqOrder : List Nat) :
    List EpochCall × Option WorkerFailure :=
  let d := drainResults eStep deqOrder
  (popOrder.map EpochCall.docEStepCall ++ d.1 ++
     (match d.2 with
      | none => [EpochCall.mStepCall]
      | some _ => []),
   d.2)

/-- Modelled from the spec: `partial_fit` performs exactly one EM epoch;
a worker failure observed while draining is re-thrown on the
orchestrator thread to the caller. -/
def fitOneEpoch (eStep : Nat → EStepResult) (popOrder deqOrder : List Nat) :
    Except WorkerFailure (List EpochCall) :=
  match epochCalls eStep popOrder deqOrder with
  | (calls, none) => Except.ok calls
  | (_, some f) => Except.error f

/-- Constructor defaults of `LDA` (src/include/ldaplusplus/LDA.hpp):
`iterations = 20`, `workers = 1`. -/
structure LDAConfig where
  iterations : Nat := 20
  workers : Nat := 1
deriving Repr, DecidableEq

/-- The configuration produced by the defaulted constructor arguments. -/
def defaultLDAConfig : LDAConfig := {}

/-- Modelled from the spec: the epoch loop of `fit`, starting at epoch
`n` with `k` epochs left.  Each epoch may use its own expectation
outcomes and schedules (the corpus is shuffled between epochs); a worker
failure is terminal for the whole fit call (spec section 7). -/
def fitEpochs (eStep : Nat → Nat → EStepResult)
    (orders : Nat → List Nat × List Nat) :
    Nat → Nat → List (List EpochCall) × Option WorkerFailure
  | _, 0 => ([], none)
  | n, Nat.succ k =>
    match epochCalls (eStep n) (orders n).1 (orders n).2 with
    | (calls, some f) => ([calls], some f)
    | (calls, none) =>
      let rest := fitEpochs eStep orders (n + 1) k
      (calls :: rest.1, rest.2)

/-- Modelled from the spec: `fit` runs the epoch loop for the configured
number of iterations.  Returns the per-epoch call logs and the failure,
if any, that aborted the run. -/
def fitLDA (cfg : LDAConfig) (eStep : Nat → Nat → EStepResult)
    (orders : Nat → List Nat × List Nat) :
    List (List EpochCall) × Option WorkerFailure :=
  fitEpochs eStep orders 0 cfg.iterations

/-- Recognize a `doc_m_step` call in a call log. -/
def isDocMStepCall : EpochCall → Bool
  | EpochCall.docMStepCall _ => true
  | _ => false

theorem drainResults_ok (eStep : Nat → EStepResult) (l : List Nat)
    (hok : ∀ i ∈ l, (eStep i).isOk) :
    drainResults eStep l = (l.map EpochCall.docMStepCall, none) := by
  induction l with
  | nil => rfl
  | cons i rest ih =>
    have hi : (eStep i).isOk := hok i (List.mem_cons_self i rest)
    cases he : eStep i with
    | ok v =>
      have hrest : ∀ j ∈ rest, (eStep j).isOk := by
        intro j hj
        exact hok j (List.mem_cons_of_mem i hj)
      simp [drainResults, he, ih hrest]
    | error e => simp [he, Except.isOk, Except.toBool] at hi

theorem mStep_only_last (A : List EpochCall)
    (hA : EpochCall.mStepCall ∉ A) (j : Nat)
    (hm : (A ++ [EpochCall.mStepCall])[j]? = some EpochCall.mStepCall) :
    j = A.length := by
  by_cases hj : j < A.length
  · rw [List.getElem?_append, if_pos hj] at hm
    exact absurd (List.getElem?_mem hm) hA
  · push_neg at hj
    rw [List.getElem?_append_right hj] at hm
    rcases List.getElem?_eq_some.mp hm with ⟨hlt, _⟩
    simp at hlt
    omega

theorem docM_before_length (A : List EpochCall) (j : Nat) (c : EpochCall)
    (hc : (A ++ [EpochCall.mStepCall])[j]? = some c)
    (hdm : isDocMStepCall c = true) : j < A.length := by
  by_contra hj
  push_neg at hj
  rw [List.getElem?_append_right hj] at hc
  rcases List.getElem?_eq_some.mp hc with ⟨hlt, _⟩
  simp at hlt
  rw [hlt] at hc
  simp at hc
  rw [← hc] at hdm
  simp [isDocMStepCall] at hdm

/-- Claim C2: in every epoch that completes (no worker failure), the
number of `doc_m_step` calls equals `corpus.size()`, they are issued on
the orchestrator thread in exactly the order results are dequeued, and
all of them occur strictly before the epoch's single `m_step` call. -/
theorem claim2_doc_m_step_before_m_step (eStep : Nat → EStepResult)
    (popOrder deqOrder : List Nat) (N : Nat)
    (hdeq : List.Perm deqOrder (List.range N))
    (hok : ∀ i, (eStep i).isOk) :
    epochCalls eStep popOrder deqOrder =
      (popOrder.map EpochCall.docEStepCall ++
         deqOrder.map EpochCall.docMStepCall ++ [EpochCall.mStepCall], none) ∧
    ((epochCalls eStep popOrder deqOrder).1.filter isDocMStepCall).length = N ∧
    (epochCalls eStep popOrder deqOrder).1.count EpochCall.mStepCall = 1 ∧
    (∀ j1 j2 : Nat, ∀ c : EpochCall,
      (epochCalls eStep popOrder deqOrder).1[j1]? = some c →
      isDocMStepCall c = true →
      (epochCalls eStep popOrder deqOrder).1[j2]? = some EpochCall.mStepCall →
      j1 < j2) := by
  have hdrain : drainResults eStep deqOrder =
      (deqOrder.map EpochCall.docMStepCall, none) :=
    drainResults_ok eStep deqOrder (fun i _ => hok i)
  have hcalls : epochCalls eStep popOrder deqOrder =
      (popOrder.map EpochCall.docEStepCall ++
         deqOrder.map EpochCall.docMStepCall ++ [EpochCall.mStepCall], none) := by
    simp [epochCalls, hdrain]
  have hlen : deqOrder.length = N := by
    simpa [List.length_range] using hdeq.length_eq
  have hA : EpochCall.mStepCall ∉
      popOrder.map EpochCall.docEStepCall ++ deqOrder.map EpochCall.docMStepCall := by
    simp
  refine ⟨hcalls, ?_, ?_, ?_⟩
  · rw [hcalls]
    simp [List.filter_append, List.filter_map, Function.comp_def, isDocMStepCall, hlen]
  · rw [hcalls]
    have h01 : (popOrder.map EpochCall.docEStepCall).count EpochCall.mStepCall = 0 := by
      rw [List.count_eq_zero]
      simp
    have h02 : (deqOrder.map EpochCall.docMStepCall).count EpochCall.mStepCall = 0 := by
      rw [List.count_eq_zero]
      simp
    simp [List.count_append, h01, h02]
  · intro j1 j2 c hc hdm hm
    rw [hcalls] at hc hm
    simp only [List.append_assoc] at hc hm
    rw [← List.append_assoc] at hc hm
    have h1 := docM_before_length _ j1 c hc hdm
    have h2 := mStep_only_last _ hA j2 hm
    omega

theorem claim2_witness :
    (List.Perm [1, 0] (List.range 2) ∧
     (∀ i : Nat, ((fun _ => Except.ok ({ phi := [], gamma := [] }, 0)
        : Nat → EStepResult) i).isOk)) ∧
    epochCalls (fun _ => Except.ok ({ phi := [], gamma := [] }, 0)) [0, 1] [1, 0] =
      ([EpochCall.docEStepCall 0, EpochCall.docEStepCall 1,
        EpochCall.docMStepCall 1, EpochCall.docMStepCall 0,
        EpochCall.mStepCall], none) := by
  have h := claim2_doc_m_step_before_m_step
    (fun _ => Except.ok ({ phi := [], gamma := [] }, 0)) [0, 1] [1, 0] 2
    (by decide) (fun i => by simp [Except.isOk, Except.toBool])
  exact ⟨⟨by decide, fun i => by simp [Except.isOk, Except.toBool]⟩,
    by simpa using h.1⟩

theorem drainResults_mem_docM (eStep : Nat → EStepResult) (l : List Nat)
    (c : EpochCall) (hc : c ∈ (drainResults eStep l).1) :
    ∃ i, c = EpochCall.docMStepCall i := by
  induction l with
  | nil => simp [drainResults] at hc
  | cons i rest ih =>
    cases he : eStep i with
    | ok v =>
      simp only [drainResults, he] at hc
      cases List.mem_cons.mp hc with
      | inl h1 => exact ⟨i, h1⟩
      | inr h2 => exact ih h2
    | error e => simp [drainResults, he] at hc

theorem drainResults_fails_at (eStep : Nat → EStepResult) (l : List Nat)
    (k : Nat) (hk : k ∈ l) (hkf : ∀ v, eStep k ≠ Except.ok v)
    (hok : ∀ i, i ≠ k → (eStep i).isOk) :
    (drainResults eStep l).2 = some { docIndex := k } := by
  induction l with
  | nil => simp at hk
  | cons i rest ih =>
    by_cases hik : i = k
    · subst hik
      cases he : eStep i with
      | ok v => exact absurd he (hkf v)
      | error e => simp [drainResults, he]
    · have hi : (eStep i).isOk := hok i hik
      cases he : eStep i with
      | ok v =>
        have hkrest : k ∈ rest := by
          cases List.mem_cons.mp hk with
          | inl h1 => exact absurd h1.symm hik
          | inr h2 => exact h2
        simp only [drainResults, he]
        exact ih hkrest
      | error e => simp [he, Except.isOk, Except.toBool] at hi

/-- Claim C3: if the `doc_e_step` implementation throws for document
index 3 (and only there), then `partial_fit` reports a `WorkerFailure`
referencing index 3, re-thrown on the orchestrator thread to the caller
rather than silently dropped, and `m_step` is not invoked for that
epoch. -/
theorem claim3_worker_failure_surfaced (eStep : Nat → EStepResult)
    (popOrder deqOrder : List Nat) (e : String)
    (h3 : eStep 3 = Except.error e)
    (hok : ∀ i, i ≠ 3 → (eStep i).isOk)
    (hmem : 3 ∈ deqOrder) :
    fitOneEpoch eStep popOrder deqOrder = Except.error { docIndex := 3 } ∧
    EpochCall.mStepCall ∉ (epochCalls eStep popOrder deqOrder).1 := by
  have hfail : (drainResults eStep deqOrder).2 = some { docIndex := 3 } :=
    drainResults_fails_at eStep deqOrder 3 hmem
      (fun v hv => by rw [h3] at hv; exact Except.noConfusion hv) hok
  constructor
  · have hsnd : (epochCalls eStep popOrder deqOrder).2 = some { docIndex := 3 } := by
      simp [epochCalls, hfail]
    unfold fitOneEpoch
    cases hep : epochCalls eStep popOrder deqOrder with
    | mk calls f =>
      rw [hep] at hsnd
      simp at hsnd
      subst hsnd
      rfl
  · intro hin
    simp only [epochCalls, hfail, List.append_nil] at hin
    rw [List.mem_append] at hin
    cases hin with
    | inl h1 =>
      rcases List.mem_map.mp h1 with ⟨x, _, hx⟩
      exact EpochCall.noConfusion hx
    | inr h2 =>
      rcases drainResults_mem_docM eStep deqOrder _ h2 with ⟨i, hi⟩
      exact EpochCall.noConfusion hi

theorem claim3_witness :
    ((fun i => if i = 3 then Except.error "boom" else
        Except.ok ({ phi := [], gamma := [] }, 0) : Nat → EStepResult) 3 =
      Except.error "boom" ∧ (3 : Nat) ∈ [0, 1, 2, 3, 4]) ∧
    fitOneEpoch
      (fun i => if i = 3 then Except.error "boom" else
        Except.ok ({ phi := [], gamma := [] }, 0))
      [0, 1, 2, 3, 4] [0, 1, 2, 3, 4] = Except.error { docIndex := 3 } := by
  have h := claim3_worker_failure_surfaced
    (fun i => if i = 3 then Except.error "boom" else
      Except.ok ({ phi := [], gamma := [] }, 0))
    [0, 1, 2, 3, 4] [0, 1, 2, 3, 4] "boom" (by simp)
    (fun i hi => by simp [hi, Except.isOk, Except.toBool]) (by simp)
  exact ⟨⟨by simp, by simp⟩, h.1⟩

theorem fitEpochs_length (eStep : Nat → Nat → EStepResult)
    (orders : Nat → List Nat × List Nat)
    (hok : ∀ n i, ((eStep n) i).isOk) (n k : Nat) :
    (fitEpochs eStep orders n k).1.length = k ∧
    (fitEpochs eStep orders n k).2 = none := by
  induction k generalizing n with
  | zero => simp [fitEpochs]
  | succ k ih =>
    have hdrain : drainResults (eStep n) (orders n).2 =
        ((orders n).2.map EpochCall.docMStepCall, none) :=
      drainResults_ok (eStep n) (orders n).2 (fun i _ => hok n i)
    have hep : epochCalls (eStep n) (orders n).1 (orders n).2 =
        ((orders n).1.map EpochCall.docEStepCall ++
          (orders n).2.map EpochCall.docMStepCall ++ [EpochCall.mStepCall], none) := by
      simp [epochCalls, hdrain]
    have := ih (n + 1)
    simp only [fitEpochs, hep]
    simpa using this

/-- Claim C6: `fit` runs exactly the configured number of epochs (the
`iterations` constructor argument, whose default is 20); there is no
convergence-based early stop at this layer, so for every expectation
strategy that completes its calls the epoch count is `cfg.iterations`,
independent of the produced variational parameters and likelihoods. -/
theorem claim6_fit_runs_configured_epochs (cfg : LDAConfig)
    (eStep : Nat → Nat → EStepResult) (orders : Nat → List Nat × List Nat)
    (hok : ∀ n i, ((eStep n) i).isOk) :
    (fitLDA cfg eStep orders).1.length = cfg.iterations ∧
    (fitLDA cfg eStep orders).2 = none ∧
    defaultLDAConfig.iterations = 20 := by
  have h := fitEpochs_length eStep orders hok 0 cfg.iterations
  exact ⟨h.1, h.2, rfl⟩

theorem claim6_witness :
    (∀ n i : Nat, (((fun _ _ => Except.ok ({ phi := [], gamma := [] }, 0)
        : Nat → Nat → EStepResult) n) i).isOk) ∧
    (fitLDA { iterations := 3 }
      (fun _ _ => Except.ok ({ phi := [], gamma := [] }, 0))
      (fun _ => ([0], [0]))).1.length = 3 := by
  have h := claim6_fit_runs_configured_epochs { iterations := 3 }
    (fun _ _ => Except.ok ({ phi := [], gamma := [] }, 0))
    (fun _ => ([0], [0]))
    (fun n i => by simp [Except.isOk, Except.toBool])
  exact ⟨fun n i => by simp [Except.isOk, Except.toBool], h.1⟩

/-- Claim C7: for an empty corpus, a `partial_fit` epoch completes with
zero `doc_e_step` calls and zero `doc_m_step` calls and still invokes
`m_step` exactly once: the whole call log is `[mStepCall]`. -/
theorem claim7_empty_corpus_epoch (eStep : Nat → EStepResult) :
    epochCalls eStep [] [] = ([EpochCall.mStepCall], none) ∧
    fitOneEpoch eStep [] [] = Except.ok [EpochCall.mStepCall] := by
  constructor
  · rfl
  · rfl

/-!
## The IEStep interface and the expectation phase

src/include/IEStep.hpp declares

  virtual Scalar doc_e_step(const VectorXi and X, int y,
      const VectorX and alpha, const MatrixX and beta, const MatrixX and eta,
      Ref of MatrixX phi, Ref of VectorX gamma) = 0;

`X`, `y`, `alpha`, `beta`, `eta` are read-only inputs (const references
or by-value); `phi` and `gamma` are the in-out variational parameters;
the return value is the likelihood scalar.  The shallow embedding of an
implementation is therefore a function from the read-only inputs and the
current `phi`/`gamma` to the new `phi`/`gamma` and the likelihood:
nothing else is writable through the signature.
-/

/-- An implementation of the `IEStep` interface: the `doc_e_step`
virtual method as a pure function of its read-only inputs and its in-out
`phi`/`gamma` parameters, returning the updated `phi`/`gamma` and the
likelihood. -/
structure IEStepImpl where
  doc_e_step : List Int → Int → List Scalar → List (List Scalar) →
    List (List Scalar) → List (List Scalar) → List Scalar →
    VariationalParameters × Scalar

/-- The mutable state visible at a `doc_e_step` call site: the shared
model parameters and the per-document variational parameters the `Ref`
arguments alias. -/
structure EStepFrame where
  model : ModelParameters
  vp : VariationalParameters
deriving Repr, DecidableEq

/-- Calling `doc_e_step` through the interface: `alpha`, `beta`, `eta`
are passed from the shared model by const reference, `phi` and `gamma`
by mutable reference.  The state after the call keeps the model
component as passed, because the signature offers no way to write it. -/
def callDocEStep (impl : IEStepImpl) (X : List Int) (y : Int)
    (f : EStepFrame) : EStepFrame × Scalar :=
  let r := impl.doc_e_step X y f.model.alpha f.model.beta f.model.eta
    f.vp.phi f.vp.gamma
  ({ model := f.model, vp := r.1 }, r.2)

/-- Claim C8: `doc_e_step` does not mutate the model parameters it
receives: `alpha`, `beta` and `eta` are unchanged after any call,
whatever the implementation and the inputs; its only outputs are the
variational parameters written through `phi`/`gamma` and the returned
likelihood scalar. -/
theorem claim8_doc_e_step_preserves_model (impl : IEStepImpl)
    (X : List Int) (y : Int) (f : EStepFrame) :
    ((callDocEStep impl X y f).1).model = f.model := rfl

/-- Modelled from the spec: the body of `LDA::transform` is not under
src/.  Spec section 4.5, derived operations: `transform` runs exactly
one expectation pass (no maximization) over the unlabeled corpus and
returns the resulting `gamma` variational parameters, one per document.
`initVP` is the per-document initialization of the `phi`/`gamma`
buffers; unlabeled documents are passed with class `-1`.  The model
state is threaded through every call so that any mutation would be
visible in the second component. -/
def transformLDA (impl : IEStepImpl) (initVP : Document → VariationalParameters)
    (mp : ModelParameters) : Corpus → List (List Scalar) × ModelParameters
  | [] => ([], mp)
  | d :: rest =>
    let r := callDocEStep impl d.wordCounts (d.label.getD (-1))
      { model := mp, vp := initVP d }
    let tail := transformLDA impl initVP ((r.1).model) rest
    (((r.1).vp).gamma :: tail.1, tail.2)

theorem transformLDA_model_unchanged (impl : IEStepImpl)
    (initVP : Document → VariationalParameters) (mp : ModelParameters)
    (corpus : Corpus) : (transformLDA impl initVP mp corpus).2 = mp := by
  induction corpus generalizing mp with
  | nil => rfl
  | cons d rest ih => simp [transformLDA, callDocEStep, ih]

/-- Claim C4: the expectation phase performs no hidden mutation of
shared state, so calling `transform` twice on the same unchanged model
parameters and corpus returns identical variational parameters both
times: the model state after the first pass is the input state, and the
second pass returns exactly what the first one did. -/
theorem claim4_transform_idempotent (impl : IEStepImpl)
    (initVP : Document → VariationalParameters) (mp : ModelParameters)
    (corpus : Corpus) :
    (transformLDA impl initVP mp corpus).2 = mp ∧
    transformLDA impl initVP (transformLDA impl initVP mp corpus).2 corpus =
      transformLDA impl initVP mp corpus := by
  rw [transformLDA_model_unchanged]
  exact ⟨rfl, rfl⟩

/-!
## Thread-safe event dispatcher

Modelled from the spec: `ThreadSafeEventDispatcher` is referenced by
`LDA::process_worker_events` (LDA.hpp) but implemented outside src/.
Spec section 4.4: `publish(event)` may be called from any thread and
appends to an internal buffer under a lock; `process_events()`, called
only from the orchestrator thread, atomically swaps out the buffer and
invokes all registered listeners, in buffer order, on the calling
thread.  Because each `publish` append is atomic, the buffer contents
are an interleaving of the per-thread emission sequences, and an
interleaving restricted to one thread is that thread's emission sequence
in order.
-/

/-- An event as seen by the dispatcher: the id of the worker thread that
published it and its payload (e.g. a likelihood). -/
structure Event where
  sourceThread : Nat
  payload : Int
deriving Repr, DecidableEq

/-- The dispatcher's internal buffer of not yet replayed events. -/
structure DispatcherState where
  buffer : List Event
deriving Repr, DecidableEq

/-- Modelled from the spec: `publish` appends one event to the buffer
under the lock, never blocking on subscriber execution. -/
def publish (e : Event) (s : DispatcherState) : DispatcherState :=
  { buffer := s.buffer ++ [e] }

/-- A sequence of `publish` calls (from any threads) applied in the
order their critical sections executed. -/
def publishAll (es : List Event) (s : DispatcherState) : DispatcherState :=
  es.foldl (fun st e => publish e st) s

/-- Modelled from the spec: `process_events` atomically swaps the buffer
out and replays it: the first component is the sequence of events
delivered to the listeners, in buffer order, each delivered to every
registered listener in registration order, sequentially on the calling
orchestrator thread before the next event is delivered; the second
component is the dispatcher state afterwards, with an empty buffer. -/
def processEvents (s : DispatcherState) : List Event × DispatcherState :=
  (s.buffer, { buffer := [] })

/-- The listener invocations performed while replaying a delivered event
sequence: for each event in order, each of the `numListeners` registered
listeners is invoked, in registration order. -/
def listenerInvocations (numListeners : Nat) (delivered : List Event) :
    List (Nat × Event) :=
  delivered.flatMap (fun e => (List.range numListeners).map (fun j => (j, e)))

theorem publishAll_buffer (es : List Event) (s : DispatcherState) :
    (publishAll es s).buffer = s.buffer ++ es := by
  induction es generalizing s with
  | nil => simp [publishAll]
  | cons e rest ih =>
    simp [publishAll] at ih ⊢
    rw [ih]
    simp [publish]

/-- The nondeterministic order in which the workers' `publish` critical
sections can execute: `InterleavingFrom rem ps` holds when the publish
sequence `ps` can be produced by threads whose remaining emission
sequences are `rem`, each thread appending its next pending event under
the lock.  Every interleaving of the per-thread emission sequences, and
nothing else, is reachable. -/
inductive InterleavingFrom : (Nat → List Event) → List Event → Prop where
  | nil (rem : Nat → List Event) (h : ∀ t, rem t = []) :
      InterleavingFrom rem []
  | cons (rem : Nat → List Event) (t : Nat) (e : Event) (tail : List Event)
      (rest : List Event) (he : rem t = e :: tail)
      (hrest : InterleavingFrom (Function.update rem t tail) rest) :
      InterleavingFrom rem (e :: rest)

theorem interleavingFrom_filter (rem : Nat → List Event) (ps : List Event)
    (h : InterleavingFrom rem ps) :
    (∀ t, ∀ e ∈ rem t, e.sourceThread = t) →
    ∀ t, ps.filter (fun e => e.sourceThread == t) = rem t := by
  induction h with
  | nil rem hnil =>
    intro _ t
    simp [hnil t]
  | cons rem t0 e tail rest he hrest ih =>
    intro hsrc t
    have hsrc_e : e.sourceThread = t0 := by
      apply hsrc t0 e
      rw [he]
      exact List.mem_cons_self e tail
    have hsrc2 : ∀ t1, ∀ e2 ∈ Function.update rem t0 tail t1,
        e2.sourceThread = t1 := by
      intro t1 e2 hmem
      by_cases h1 : t1 = t0
      · subst h1
        rw [Function.update_same] at hmem
        apply hsrc t1 e2
        rw [he]
        exact List.mem_cons_of_mem e hmem
      · rw [Function.update_noteq h1] at hmem
        exact hsrc t1 e2 hmem
    have ihh := ih hsrc2
    by_cases ht : t = t0
    · subst ht
      rw [List.filter_cons, if_pos (by simp [hsrc_e]), ihh t,
        Function.update_same, he]
    · rw [List.filter_cons, if_neg (by simp [hsrc_e]; exact fun hc => ht hc.symm),
        ihh t, Function.update_noteq ht]

/-- Claim C9: for every interleaving of the workers' `publish` calls
(each thread's events entering the buffer in its emission order, the
cross-thread order arbitrary), `process_events` empties the buffer and
replays the events in buffer order on the calling thread: every
registered listener is invoked for every event, in registration order
within an event and sequentially across events (so listener runs never
overlap each other or a `publish` critical section and never run on a
worker thread), and the events of each worker thread are replayed in
that thread's emission order. -/
theorem claim9_process_events_order (emits : Nat → List Event)
    (ps : List Event) (numListeners : Nat)
    (hsrc : ∀ t, ∀ e ∈ emits t, e.sourceThread = t)
    (hil : InterleavingFrom emits ps) :
    (processEvents (publishAll ps { buffer := [] })).1 = ps ∧
    (processEvents (publishAll ps { buffer := [] })).2.buffer = [] ∧
    listenerInvocations numListeners
        (processEvents (publishAll ps { buffer := [] })).1 =
      ps.flatMap (fun e => (List.range numListeners).map (fun j => (j, e))) ∧
    (∀ t, ((processEvents (publishAll ps { buffer := [] })).1.filter
        (fun e => e.sourceThread == t)) = emits t) := by
  have hbuf : (publishAll ps { buffer := [] }).buffer = ps := by
    simpa using publishAll_buffer ps { buffer := [] }
  have hfst : (processEvents (publishAll ps { buffer := [] })).1 = ps := by
    simp [processEvents, hbuf]
  refine ⟨hfst, rfl, ?_, ?_⟩
  · rw [hfst]
    rfl
  · intro t
    rw [hfst]
    exact interleavingFrom_filter emits ps hil hsrc t

theorem claim9_witness :
    ((∀ t, ∀ e ∈ (fun t => if t = 0 then [⟨0, 10⟩, ⟨0, 11⟩]
        else if t = 1 then [⟨1, 20⟩] else [] : Nat → List Event) t,
        e.sourceThread = t) ∧
      InterleavingFrom
        (fun t => if t = 0 then [⟨0, 10⟩, ⟨0, 11⟩]
          else if t = 1 then [⟨1, 20⟩] else [])
        [⟨0, 10⟩, ⟨1, 20⟩, ⟨0, 11⟩]) ∧
    (processEvents (publishAll [⟨0, 10⟩, ⟨1, 20⟩, ⟨0, 11⟩]
        { buffer := [] })).1 = [⟨0, 10⟩, ⟨1, 20⟩, ⟨0, 11⟩] ∧
    (∀ t, (processEvents (publishAll [⟨0, 10⟩, ⟨1, 20⟩, ⟨0, 11⟩]
        { buffer := [] })).1.filter (fun e => e.sourceThread == t) =
      (fun t => if t = 0 then [⟨0, 10⟩, ⟨0, 11⟩]
        else if t = 1 then [⟨1, 20⟩] else [] : Nat → List Event) t) := by
  have hsrc : ∀ t, ∀ e ∈ (fun t => if t = 0 then [⟨0, 10⟩, ⟨0, 11⟩]
      else if t = 1 then [⟨1, 20⟩] else [] : Nat → List Event) t,
      e.sourceThread = t := by
    intro t e he
    by_cases h0 : t = 0
    · subst h0
      simp at he
      rcases he with h | h <;> simp [h]
    · by_cases h1 : t = 1
      · subst h1
        simp at he
        simp [he]
      · simp [h0, h1] at he
  have hil : InterleavingFrom
      (fun t => if t = 0 then [⟨0, 10⟩, ⟨0, 11⟩]
        else if t = 1 then [⟨1, 20⟩] else [])
      [⟨0, 10⟩, ⟨1, 20⟩, ⟨0, 11⟩] := by
    apply InterleavingFrom.cons _ 0 ⟨0, 10⟩ [⟨0, 11⟩] _ (by simp)
    apply InterleavingFrom.cons _ 1 ⟨1, 20⟩ [] _ (by simp [Function.update])
    apply InterleavingFrom.cons _ 0 ⟨0, 11⟩ [] _ (by simp [Function.update])
    apply InterleavingFrom.nil
    intro t
    by_cases h0 : t = 0 <;> by_cases h1 : t = 1 <;>
      simp [Function.update, h0, h1]
  have h := claim9_process_events_order
    (fun t => if t = 0 then [⟨0, 10⟩, ⟨0, 11⟩]
      else if t = 1 then [⟨1, 20⟩] else [])
    [⟨0, 10⟩, ⟨1, 20⟩, ⟨0, 11⟩] 1 hsrc hil
  exact ⟨⟨hsrc, hil⟩, h.1, h.2.2.2⟩

/-!
## The model_parameters accessor

This one is implemented in src (LDA.hpp, inline):

  const std::shared_ptr of parameters::Parameters model_parameters()
      returns model_parameters_;

The `const` is top-level on the returned `shared_ptr` value (a copy);
the pointee type `parameters::Parameters` is not const.  The embedding
records the constness structure of the returned handle type and what a
caller can do through it.
-/

/-- The constness structure of a C++ `shared_ptr` typed expression:
whether the pointer value itself is const and whether the pointed-to
object type is const. -/
structure CppSharedPtrType where
  topLevelConst : Bool
  pointeeConst : Bool
deriving Repr, DecidableEq

/-- The return type of `LDA::model_parameters()` as written in
src/include/ldaplusplus/LDA.hpp: `const std::shared_ptr` of a non-const
`parameters::Parameters`. -/
def modelParametersReturnType : CppSharedPtrType :=
  { topLevelConst := true, pointeeConst := false }

/-- A handle is read-only exactly when the pointed-to object is const:
a top-level const on a returned copy does not restrict writes through
the pointer. -/
def isReadOnlyHandle (t : CppSharedPtrType) : Bool := t.pointeeConst

/-- The orchestrator state reachable through the returned handle. -/
structure LDAHandleState where
  modelParameters : ModelParameters
deriving Repr, DecidableEq

/-- The accessor itself: returns the member and leaves the state
unchanged (embeds the inline body `return model_parameters_;`). -/
def modelParametersGetter (s : LDAHandleState) :
    ModelParameters × LDAHandleState := (s.modelParameters, s)

/-- What a caller can do with the returned handle: writing through it
succeeds unless the pointee type is const. -/
def writeThroughHandle (t : CppSharedPtrType) (_s : LDAHandleState)
    (newP : ModelParameters) : Option LDAHandleState :=
  if t.pointeeConst then none else some { modelParameters := newP }

/-- Claim C10 is false on the code: the handle returned by
`model_parameters()` is not read-only (only the `shared_ptr` copy is
const, not the `Parameters` pointee), so a caller can mutate the model
state through it, here changing `alpha` from `[]` to `[1]`.  The second
half of the claim does hold: the accessor itself leaves the state
unchanged. -/
theorem claim10_handle_mutable :
    isReadOnlyHandle modelParametersReturnType = false ∧
    writeThroughHandle modelParametersReturnType
        { modelParameters := { alpha := [], beta := [], eta := [] } }
        { alpha := [1], beta := [], eta := [] } =
      some { modelParameters := { alpha := [1], beta := [], eta := [] } } ∧
    modelParametersGetter
        { modelParameters := { alpha := [], beta := [], eta := [] } } =
      ({ alpha := [], beta := [], eta := [] },
       { modelParameters := { alpha := [], beta := [], eta := [] } }) := by
  exact ⟨rfl, rfl, rfl⟩

end LdaSpec
